import Mathlib

/-!
Verification development for the seq.ts sequence engine (yever/seq.ts,
src/seq.ts). The engine wraps a one-shot JS iterator behind a `Seq` class
whose adapters (map, filter, concat, zip, init, initInfinite) are closures
implementing the JS iteration protocol: each pull returns an object
`{done, value}`.

Shallow embedding conventions:
- JS values are modelled by the inductive `JSVal`. JS numbers are modelled
  as either the not-a-number value or a (mathematical) integer, which covers
  every number the claims exercise; `undefined` is `JSVal.undef`; the arrays
  produced by `entries` and `zip` are modelled by `JSVal.pair`.
- A cursor is a step function `sigma -> IterResult x sigma` on an explicit
  state type; pulling returns one `IterResult` (the `{done, value}` object)
  and the successor state. Array-backed cursors have state `List JSVal`.
- Consumer loops (`for..of` drains, `reduce`, `includes`, `findIndex`) are
  given explicit fuel; for finite sources the theorems show a concrete fuel
  bound suffices, and for the infinite generator the fuel bound is the
  claimed pull count.
- A thrown JS exception is modelled by `JSResult.thrown`. Array
  destructuring of a value that is not iterable (as happens in `reduce`,
  `find`, `findIndex` and `includes` when the entries cursor yields the
  boolean `false`) is modelled by `destructurePair`.
- Callbacks receive `(value, index)`; the third JS argument (the owning
  Seq) is never inspected by any claim and is omitted from the embedding.
-/

/-- JS numbers as the claims exercise them: the not-a-number value or an
integer. -/
inductive JSNum where
  | nan : JSNum
  | int : Int → JSNum
deriving DecidableEq, Repr

/-- JS values flowing through the sequence engine. `pair` models the
two-element arrays built by `entries` and `zip`. -/
inductive JSVal where
  | undef : JSVal
  | boolean : Bool → JSVal
  | num : JSNum → JSVal
  | str : String → JSVal
  | pair : JSVal → JSVal → JSVal
deriving DecidableEq, Repr

/-- One pull of a JS iterator: the `{done, value}` object. A well-behaved
done result carries `value = undef`, matching JS where `{done: true}` has an
undefined `value` property. -/
structure IterResult where
  done : Bool
  value : JSVal
deriving DecidableEq, Repr

/-- A thrown JS error. Only TypeErrors arise in this engine. -/
inductive JSError where
  | typeError : String → JSError
deriving DecidableEq, Repr

/-- Outcome of running a piece of JS code: a normal value or a thrown
error. -/
inductive JSResult (α : Type) where
  | ok : α → JSResult α
  | thrown : JSError → JSResult α
deriving DecidableEq, Repr

/-- JS strict equality `===` on the modelled values. The not-a-number value
is not strictly equal to itself. Two `pair` values model two distinct array
objects (array literals built by `entries`/`zip` are fresh), and JS `===`
on objects is reference equality, so they never compare equal. -/
def strictEq : JSVal → JSVal → Bool
  | .undef, .undef => true
  | .boolean a, .boolean b => a == b
  | .num (.int a), .num (.int b) => a == b
  | .str a, .str b => a == b
  | _, _ => false

/-- The test `typeof x === 'number' && isNaN(x)` from `sameValueZero`. The
typeof guard means only genuine numbers can pass. -/
def isNumberNaN : JSVal → Bool
  | .num .nan => true
  | _ => false

/-- Translation of `sameValueZero` (src/seq.ts):
`x === y || (typeof x === 'number' && typeof y === 'number' && isNaN(x) && isNaN(y))`. -/
def sameValueZero (x y : JSVal) : Bool :=
  strictEq x y || (isNumberNaN x && isNumberNaN y)

/-- The JS comparison `index >= fromIndex` as used in `includes`, where
`index` is the destructured entries index (always a number built by the
entries callback). -/
def jsGE : JSVal → Int → Bool
  | .num (.int i), k => decide (k ≤ i)
  | _, _ => false

/-- JS array destructuring `[a, b] = v` of a value produced by the entries
cursor. Such a value is either a two-element array (modelled `pair`) or the
boolean `false`; destructuring a non-iterable value throws a TypeError. -/
def destructurePair : JSVal → JSResult (JSVal × JSVal)
  | .pair a b => .ok (a, b)
  | _ => .thrown (.typeError "not iterable")

/-- Cursor of an array-backed source (`Seq.of`, `Seq.from` on an array,
`Seq.empty`, `Array(count).keys()` in `Seq.init`): the state is the list of
elements not yet produced. -/
def listStep : List JSVal → IterResult × List JSVal
  | [] => (⟨true, .undef⟩, [])
  | v :: rest => (⟨false, v⟩, rest)

/-- Translation of the cursor built by `Seq.map` (src/seq.ts): one pull of
the source, then
`return {done, value: value !== undefined && boundCallback(value, index++, this)}`.
When the pulled value is `undefined` the conjunction short-circuits to the
boolean `false` and the index counter does not advance; otherwise the
callback result is yielded and the counter advances. The state pairs the
source state with the index counter. -/
def mapStep {σ : Type} (f : JSVal → Nat → JSVal) (step : σ → IterResult × σ)
    (s : σ × Nat) : IterResult × (σ × Nat) :=
  if (step s.1).1.value = .undef then
    (⟨(step s.1).1.done, .boolean false⟩, ((step s.1).2, s.2))
  else
    (⟨(step s.1).1.done, f (step s.1).1.value s.2⟩, ((step s.1).2, s.2 + 1))

/-- The callback `(item, index) => [index, item]` used by `Seq.entries`. -/
def entriesCb : JSVal → Nat → JSVal :=
  fun v i => .pair (.num (.int i)) v

/-- One pull of `seq.entries()` over an array-backed source: the map cursor
with the entries callback. -/
def entriesNext : List JSVal × Nat → IterResult × (List JSVal × Nat) :=
  mapStep entriesCb listStep

/-- Translation of the cursor built by `Seq.filter` over an array-backed
source: pull, then keep pulling `while (!result.done && !callback(result.value, index++, this))`,
finally return the raw source result. The index counter advances once per
examined element, discarded ones included. -/
def filterPull (p : JSVal → Nat → Bool) : List JSVal → Nat → IterResult × (List JSVal × Nat)
  | [], index => (⟨true, .undef⟩, ([], index))
  | v :: rest, index =>
    if p v index then (⟨false, v⟩, (rest, index + 1))
    else filterPull p rest (index + 1)

/-- The filter cursor as a step function on its state. -/
def filterStep (p : JSVal → Nat → Bool) (s : List JSVal × Nat) :
    IterResult × (List JSVal × Nat) :=
  filterPull p s.1 s.2

/-- An argument of the static `Seq.concat`: a Seq (array-backed here) or a
bare value, which concat wraps via `Seq.of(nextItem)` into a singleton. -/
inductive ConcatItem where
  | seq : List JSVal → ConcatItem
  | scalar : JSVal → ConcatItem
deriving DecidableEq, Repr

/-- The cursor concat obtains from an item:
`nextItem instanceof Seq ? nextItem : Seq.of(nextItem)`. -/
def itemToList : ConcatItem → List JSVal
  | .seq l => l
  | .scalar v => [v]

/-- Translation of the recursive `next` closure of the static `Seq.concat`:
pull the current iterator; if not done return the result; otherwise advance
to the next item and retry, and report done once the items are used up. The
state is the remainder of the current item plus the unconsumed items. -/
def concatPull : List JSVal → List ConcatItem → IterResult × (List JSVal × List ConcatItem)
  | v :: rest, items => (⟨false, v⟩, (rest, items))
  | [], [] => (⟨true, .undef⟩, ([], []))
  | [], it :: items => concatPull (itemToList it) items

/-- The concat cursor as a step function on its state. -/
def concatStep (s : List JSVal × List ConcatItem) :
    IterResult × (List JSVal × List ConcatItem) :=
  concatPull s.1 s.2

/-- Result of calling the static `Seq.concat`: with no arguments it returns
the shared constant `Seq.empty`; otherwise a fresh cursor positioned on the
first item. -/
inductive ConcatResult where
  | emptySeq : ConcatResult
  | cursor : List JSVal × List ConcatItem → ConcatResult
deriving DecidableEq, Repr

/-- Translation of the entry of static `Seq.concat`:
`if (items.length < 1) return Seq.empty;` else build the cursor starting on
the first item. -/
def concatMake : List ConcatItem → ConcatResult
  | [] => .emptySeq
  | it :: items => .cursor (itemToList it, items)

/-- Translation of the cursor built by `Seq.zip`: one pull of each source
per step, then
`(item1.done || item2.done) ? {done: true} : {done: false, value: [item1.value, item2.value]}`.
Both sources advance even on the final, exhausting pull. -/
def zipStep {σ₁ σ₂ : Type} (step1 : σ₁ → IterResult × σ₁) (step2 : σ₂ → IterResult × σ₂)
    (s : σ₁ × σ₂) : IterResult × (σ₁ × σ₂) :=
  if (step1 s.1).1.done || (step2 s.2).1.done then
    (⟨true, .undef⟩, ((step1 s.1).2, (step2 s.2).2))
  else
    (⟨false, .pair (step1 s.1).1.value (step2 s.2).1.value⟩, ((step1 s.1).2, (step2 s.2).2))

/-- Translation of the cursor built by `Seq.initInfinite`:
`{next: () => ({value: index++, done: false})}`. The state counts the pulls
made so far, so after the n-th pull the state is n. -/
def initInfiniteStep (index : Nat) : IterResult × Nat :=
  (⟨false, .num (.int (index : Int))⟩, index + 1)

/-- Fuel-bounded drain of a cursor, modelling `[...seq]` or a `for..of`
loop that collects every produced element: pull until a done result (or the
fuel runs out, which the theorems always rule out). -/
def drain {σ : Type} (step : σ → IterResult × σ) : Nat → σ → List JSVal
  | 0, _ => []
  | fuel + 1, s =>
    if (step s).1.done then []
    else (step s).1.value :: drain step fuel (step s).2

/-- Results of the n-th pull (0-based) on a cursor started in state s,
together with the state after it. -/
def nthRes {σ : Type} (step : σ → IterResult × σ) (s : σ) : Nat → IterResult × σ
  | 0 => step s
  | n + 1 => step (nthRes step s n).2

/-- One-step exhaustion persistence: from any state, if a pull reports done
then the following pull does too. -/
def StickyStep {σ : Type} (step : σ → IterResult × σ) : Prop :=
  ∀ s : σ, (step s).1.done = true → (step (step s).2).1.done = true

/-- Full exhaustion persistence from a starting state: once some pull
reports done, every later pull does. -/
def Sticky {σ : Type} (step : σ → IterResult × σ) (s : σ) : Prop :=
  ∀ n m : Nat, n ≤ m → (nthRes step s n).1.done = true → (nthRes step s m).1.done = true

/-- Translation of the `for..of` fold loop of `Seq.reduce`:
`for (const [index, item] of iterator) accumulator = callbackfn(accumulator, item, index, this)`.
A `for..of` step reads `done` first and only destructures `value` when not
done; destructuring a non-iterable value throws. Fuel-bounded; `none` means
the fuel ran out. -/
def forOfFold {σ : Type} (step : σ → IterResult × σ) (f : JSVal → JSVal → JSVal → JSVal) :
    Nat → σ → JSVal → Option (JSResult JSVal)
  | 0, _, _ => none
  | fuel + 1, s, acc =>
    if (step s).1.done then some (.ok acc)
    else
      match destructurePair (step s).1.value with
      | .thrown e => some (.thrown e)
      | .ok (index, item) => forOfFold step f fuel (step s).2 (f acc item index)

/-- Translation of `Seq.reduce` over an array-backed source. The callback
receives `(accumulator, item, index)` with the index as the JS number the
entries cursor produced. With `initialValue === undefined` the code runs
`let {done, value: [_, acc]} = iterator.next()` — the destructuring of
`value` happens in the same statement, before the `if (done)` test that
would raise the empty-reduction TypeError. -/
def reduceModel (f : JSVal → JSVal → JSVal → JSVal) (initialValue : JSVal)
    (l : List JSVal) : Option (JSResult JSVal) :=
  if initialValue = .undef then
    match destructurePair (entriesNext (l, 0)).1.value with
    | .thrown e => some (.thrown e)
    | .ok (_, acc) =>
      if (entriesNext (l, 0)).1.done then
        some (.thrown (.typeError "Reduce of empty Seq with no initial value"))
      else forOfFold entriesNext f (l.length + 1) (entriesNext (l, 0)).2 acc
  else forOfFold entriesNext f (l.length + 1) (l, 0) initialValue

/-- A call of `reduce`: `none` models leaving the second argument out, in
which case the JS parameter `initialValue` is bound to `undefined`. -/
def reduceCall (f : JSVal → JSVal → JSVal → JSVal) (arg : Option JSVal)
    (l : List JSVal) : Option (JSResult JSVal) :=
  reduceModel f (arg.getD .undef) l

/-- Translation of the loop of `Seq.includes` over an array-backed source:
`for (const [index, item] of this.entries())`, returning true on the first
entry with `(fromIndex === undefined || index >= fromIndex) && sameValueZero(item, searchElement)`,
and false when the entries cursor is exhausted. `none` for `fromIndex`
models leaving the argument out. -/
def includesLoop (search : JSVal) (fromIndex : Option Int) :
    Nat → List JSVal × Nat → Option (JSResult Bool)
  | 0, _ => none
  | fuel + 1, s =>
    if (entriesNext s).1.done then some (.ok false)
    else
      match destructurePair (entriesNext s).1.value with
      | .thrown e => some (.thrown e)
      | .ok (index, item) =>
        if (fromIndex.elim true fun fi => jsGE index fi) && sameValueZero item search
        then some (.ok true)
        else includesLoop search fromIndex fuel (entriesNext s).2

/-- A call of `seq.includes(search, fromIndex?)` on an array-backed source,
with enough fuel to drain the whole list. -/
def includesModel (search : JSVal) (fromIndex : Option Int) (l : List JSVal) :
    Option (JSResult Bool) :=
  includesLoop search fromIndex (l.length + 1) (l, 0)

/-- Translation of the loop of `Seq.findIndex`:
`for (const [index, item] of this.entries()) if (callback(item, index, this)) return index; return -1;`.
The final cursor state is returned alongside the result so the theorems can
count how many pulls were made on the underlying source. -/
def findIndexLoop {σ : Type} (step : σ → IterResult × σ) (p : JSVal → JSVal → Bool) :
    Nat → σ → Option (JSResult JSVal × σ)
  | 0, _ => none
  | fuel + 1, s =>
    if (step s).1.done then some (.ok (.num (.int (-1))), (step s).2)
    else
      match destructurePair (step s).1.value with
      | .thrown e => some (.thrown e, (step s).2)
      | .ok (index, item) =>
        if p item index then some (.ok index, (step s).2)
        else findIndexLoop step p fuel (step s).2

/-- Spec-side description of draining `map(f)` (claim C1): f applied to
each source element in order, the index starting at i and advancing by one
per element. -/
def mapDrainSpec (f : JSVal → Nat → JSVal) : List JSVal → Nat → List JSVal
  | [], _ => []
  | v :: rest, i => f v i :: mapDrainSpec f rest (i + 1)

/-- Spec-side description of draining `filter(p)` (claim C4): the
subsequence of elements satisfying p, the index advancing for every
examined element, discarded ones included. -/
def filterDrainSpec (p : JSVal → Nat → Bool) : List JSVal → Nat → List JSVal
  | [], _ => []
  | v :: rest, i =>
    if p v i then v :: filterDrainSpec p rest (i + 1)
    else filterDrainSpec p rest (i + 1)

/-- Spec-side description of draining `zip` (claim C6): pairs of the two
sources, truncated to the shorter one. -/
def zipSpec (l1 l2 : List JSVal) : List JSVal :=
  (l1.zip l2).map fun q => .pair q.1 q.2

/-- Spec-side description of draining `concat` (claim C7): each item
contributes its elements in order, left to right. -/
def concatFlatten : List ConcatItem → List JSVal
  | [] => []
  | it :: items => itemToList it ++ concatFlatten items

/-- Spec-side left fold with a running index (claims C3 and C10): the
accumulator is folded against each element in production order, the index
passed as the JS number it would carry. -/
def foldWithIndex (f : JSVal → JSVal → JSVal → JSVal) : JSVal → List JSVal → Nat → JSVal
  | a, [], _ => a
  | a, v :: rest, i => foldWithIndex f (f a v (.num (.int (i : Int)))) rest (i + 1)

/-- Spec-side description of `includes` (claim C9): some element at an
index at or above fromIndex (no bound when absent) matches the search
element under sameValueZero. -/
def includesSpec (search : JSVal) (fromIndex : Option Int) : List JSVal → Nat → Bool
  | [], _ => false
  | v :: rest, i =>
    ((fromIndex.elim true fun fi => decide (fi ≤ (i : Int))) && sameValueZero v search)
      || includesSpec search fromIndex rest (i + 1)

lemma entriesNext_nil (i : Nat) :
    entriesNext ([], i) = (⟨true, .boolean false⟩, ([], i)) := rfl

lemma entriesNext_undef (l : List JSVal) (i : Nat) :
    entriesNext (.undef :: l, i) = (⟨false, .boolean false⟩, (l, i)) := rfl

lemma entriesNext_cons {v : JSVal} (h : v ≠ .undef) (l : List JSVal) (i : Nat) :
    entriesNext (v :: l, i) = (⟨false, .pair (.num (.int i)) v⟩, (l, i + 1)) := by
  simp [entriesNext, mapStep, listStep, entriesCb, h]

lemma mapStep_list_nil (f : JSVal → Nat → JSVal) (i : Nat) :
    mapStep f listStep ([], i) = (⟨true, .boolean false⟩, ([], i)) := rfl

lemma mapStep_list_cons {v : JSVal} (f : JSVal → Nat → JSVal) (h : v ≠ .undef)
    (l : List JSVal) (i : Nat) :
    mapStep f listStep (v :: l, i) = (⟨false, f v i⟩, (l, i + 1)) := by
  simp [mapStep, listStep, h]

lemma map_drain_clean (f : JSVal → Nat → JSVal) :
    ∀ (l : List JSVal) (i fuel : Nat), (∀ v ∈ l, v ≠ .undef) → l.length + 1 ≤ fuel →
      drain (mapStep f listStep) fuel (l, i) = mapDrainSpec f l i := by
  intro l
  induction l with
  | nil =>
    intro i fuel _ hf
    obtain ⟨f', rfl⟩ : ∃ f', fuel = f' + 1 := ⟨fuel - 1, by omega⟩
    simp [drain, mapStep_list_nil, mapDrainSpec]
  | cons v rest ih =>
    intro i fuel hc hf
    obtain ⟨f', rfl⟩ : ∃ f', fuel = f' + 1 := ⟨fuel - 1, by omega⟩
    have hv : v ≠ .undef := hc v (by simp)
    have hrest : ∀ w ∈ rest, w ≠ .undef := fun w hw => hc w (by simp [hw])
    have hlen : rest.length + 1 ≤ f' := by simp at hf; omega
    simp [drain, mapStep_list_cons f hv, mapDrainSpec]
    exact ih (i + 1) f' hrest hlen

/-- C1: for finite sources, draining `map(f)` yields `f` applied to each
source element in order with the index starting at 0 — except that the code
guards the callback with `value !== undefined`, so an `undefined` source
element is turned into the boolean `false` without invoking `f` and without
advancing the index. The first conjunct evaluates the code at the failing
input `[undefined]` (for every callback the drain is `[false]`), the second
records what the claim demands there, and the third proves the claimed
behaviour for sources that contain no `undefined` element. -/
theorem map_undefined_element_bug :
    (∀ (f : JSVal → Nat → JSVal) (fuel : Nat), 2 ≤ fuel →
      drain (mapStep f listStep) fuel ([.undef], 0) = [.boolean false])
    ∧ (∀ f : JSVal → Nat → JSVal, mapDrainSpec f [.undef] 0 = [f .undef 0])
    ∧ (∀ (f : JSVal → Nat → JSVal) (l : List JSVal) (fuel : Nat),
        (∀ v ∈ l, v ≠ .undef) → l.length + 1 ≤ fuel →
        drain (mapStep f listStep) fuel (l, 0) = mapDrainSpec f l 0) := by
  refine ⟨?_, ?_, ?_⟩
  · intro f fuel hf
    obtain ⟨a, rfl⟩ : ∃ a, fuel = a + 2 := ⟨fuel - 2, by omega⟩
    simp [drain, mapStep, listStep]
  · intro f
    simp [mapDrainSpec]
  · intro f l fuel hc hf
    exact map_drain_clean f l 0 fuel hc hf

theorem map_undefined_element_bug_witness :
    drain (mapStep (fun _ _ => .num (.int 42)) listStep) 2 ([.undef], 0) = [.boolean false]
    ∧ drain (mapStep (fun v _ => .pair v v) listStep) 3 ([.num (.int 7), .str "a"], 0) =
        mapDrainSpec (fun v _ => .pair v v) [.num (.int 7), .str "a"] 0 :=
  ⟨map_undefined_element_bug.1 _ 2 (by omega),
   map_undefined_element_bug.2.2 _ _ 3 (by decide) (by decide)⟩

lemma filter_drain_clean (p : JSVal → Nat → Bool) :
    ∀ (l : List JSVal) (i fuel : Nat), l.length + 1 ≤ fuel →
      drain (filterStep p) fuel (l, i) = filterDrainSpec p l i := by
  intro l
  induction l with
  | nil =>
    intro i fuel hf
    obtain ⟨f', rfl⟩ : ∃ f', fuel = f' + 1 := ⟨fuel - 1, by omega⟩
    simp [drain, filterStep, filterPull, filterDrainSpec]
  | cons v rest ih =>
    intro i fuel hf
    obtain ⟨f', rfl⟩ : ∃ f', fuel = f' + 1 := ⟨fuel - 1, by omega⟩
    have hlen : rest.length + 1 ≤ f' := by simp at hf; omega
    by_cases hp : p v i
    · simp [drain, filterStep, filterPull, hp, filterDrainSpec]
      exact ih (i + 1) f' hlen
    · have hstep : filterStep p (v :: rest, i) = filterStep p (rest, i + 1) := by
        simp [filterStep, filterPull, hp]
      have hdr : drain (filterStep p) (f' + 1) (v :: rest, i)
          = drain (filterStep p) (f' + 1) (rest, i + 1) := by
        simp only [drain, hstep]
      rw [hdr]
      simp [filterDrainSpec, hp]
      exact ih (i + 1) (f' + 1) (by omega)

/-- C4: for finite sources, draining `filter(p)` yields exactly the
subsequence of source elements satisfying p, in source order, with the
index passed to p counting every examined element, discarded ones
included. -/
theorem filter_drain_claim (p : JSVal → Nat → Bool) (l : List JSVal) (fuel : Nat)
    (hfuel : l.length + 1 ≤ fuel) :
    drain (filterStep p) fuel (l, 0) = filterDrainSpec p l 0 :=
  filter_drain_clean p l 0 fuel hfuel

theorem filter_drain_claim_witness :
    drain (filterStep (fun v _ => decide (v ≠ .str "x"))) 4
      ([.num (.int 1), .str "x", .num (.int 2)], 0) =
      filterDrainSpec (fun v _ => decide (v ≠ .str "x"))
        [.num (.int 1), .str "x", .num (.int 2)] 0 :=
  filter_drain_claim _ _ 4 (by decide)

lemma forOfFold_entries_clean (f : JSVal → JSVal → JSVal → JSVal) :
    ∀ (l : List JSVal) (i : Nat) (a : JSVal) (fuel : Nat),
      (∀ v ∈ l, v ≠ .undef) → l.length + 1 ≤ fuel →
      forOfFold entriesNext f fuel (l, i) a = some (.ok (foldWithIndex f a l i)) := by
  intro l
  induction l with
  | nil =>
    intro i a fuel _ hf
    obtain ⟨f', rfl⟩ : ∃ f', fuel = f' + 1 := ⟨fuel - 1, by omega⟩
    simp [forOfFold, entriesNext_nil, foldWithIndex]
  | cons v rest ih =>
    intro i a fuel hc hf
    obtain ⟨f', rfl⟩ : ∃ f', fuel = f' + 1 := ⟨fuel - 1, by omega⟩
    have hv : v ≠ .undef := hc v (by simp)
    have hrest : ∀ w ∈ rest, w ≠ .undef := fun w hw => hc w (by simp [hw])
    have hlen : rest.length + 1 ≤ f' := by simp at hf; omega
    simp [forOfFold, entriesNext_cons hv, destructurePair, foldWithIndex]
    exact ih (i + 1) _ f' hrest hlen

lemma reduce_unseeded_clean (f : JSVal → JSVal → JSVal → JSVal) (v0 : JSVal)
    (rest : List JSVal) (hv : v0 ≠ .undef) (hrest : ∀ v ∈ rest, v ≠ .undef) :
    reduceModel f .undef (v0 :: rest) = some (.ok (foldWithIndex f v0 rest 1)) := by
  simp [reduceModel, entriesNext_cons hv, destructurePair]
  exact forOfFold_entries_clean f rest 1 v0 _ hrest (by simp)

/-- C2: `reduce` with no initial value on an already-exhausted Sequence
does fail immediately, but not with the claimed EmptyReduction TypeError.
The statement `let {done, value: [_, acc]} = iterator.next()` destructures
`value` before the `if (done)` test is reached, and on an empty Sequence
the entries cursor's done result carries `value: false` (the map adapter
turns the undefined value of a done result into the boolean `false`), so
the array destructuring of a non-iterable value throws first and the
dedicated `TypeError('Reduce of empty Seq with no initial value')` is
unreachable. -/
theorem reduce_empty_wrong_error :
    (∀ f : JSVal → JSVal → JSVal → JSVal,
      reduceModel f .undef [] = some (.thrown (.typeError "not iterable")))
    ∧ (∀ f : JSVal → JSVal → JSVal → JSVal,
      reduceModel f .undef [] ≠
        some (.thrown (.typeError "Reduce of empty Seq with no initial value"))) := by
  constructor
  · intro f
    rfl
  · intro f
    have h1 : reduceModel f .undef [] = some (.thrown (.typeError "not iterable")) := rfl
    rw [h1]
    decide

/-- C3 counterexample: a Sequence producing exactly the one element
`undefined` makes unseeded `reduce` throw (the entries cursor yields the
boolean `false` for an undefined element and destructuring it fails)
instead of returning the element unmodified as the claim states. -/
theorem reduce_single_element_counterexample :
    reduceModel (fun a _ _ => a) .undef [.undef] =
      some (.thrown (.typeError "not iterable"))
    ∧ reduceModel (fun a _ _ => a) .undef [.undef] ≠ some (.ok .undef) := by
  constructor
  · rfl
  · decide

/-- C3 (amended to elements that are not undefined): unseeded `reduce` on a
one-element Sequence returns that element without invoking the fold
callback (the result does not depend on f); on two or more elements the
first element seeds the accumulator and the first fold call receives it
against the second element at index 1, folding left-to-right in production
order. -/
theorem reduce_unseeded_semantics :
    (∀ (f : JSVal → JSVal → JSVal → JSVal) (v : JSVal), v ≠ .undef →
      reduceModel f .undef [v] = some (.ok v))
    ∧ (∀ (f : JSVal → JSVal → JSVal → JSVal) (v0 v1 : JSVal) (rest : List JSVal),
        v0 ≠ .undef → v1 ≠ .undef → (∀ v ∈ rest, v ≠ .undef) →
        reduceModel f .undef (v0 :: v1 :: rest) =
          some (.ok (foldWithIndex f (f v0 v1 (.num (.int (1 : Nat)))) rest 2))) := by
  constructor
  · intro f v hv
    rw [reduce_unseeded_clean f v [] hv (by simp)]
    rfl
  · intro f v0 v1 rest h0 h1 hrest
    rw [reduce_unseeded_clean f v0 (v1 :: rest) h0 (by
      intro w hw
      rcases List.mem_cons.mp hw with h | h
      · exact h ▸ h1
      · exact hrest w h)]
    rfl

theorem reduce_unseeded_semantics_witness :
    reduceModel (fun _ v _ => v) .undef [.str "a"] = some (.ok (.str "a"))
    ∧ reduceModel (fun _ v _ => v) .undef [.num (.int 3), .num (.int 4)] =
        some (.ok (.num (.int 4))) := by
  refine ⟨reduce_unseeded_semantics.1 _ _ (by decide), ?_⟩
  rw [reduce_unseeded_semantics.2 _ _ _ [] (by decide) (by decide) (by decide)]
  rfl

/-- C10 counterexample: for a non-empty Sequence whose first produced
element is `undefined`, `reduce(f, undefined)` does not make that element
the seed — it throws, because the entries cursor yields the boolean `false`
for an undefined element and the destructuring of it fails. -/
theorem reduce_undefined_first_counterexample :
    reduceCall (fun a _ _ => a) (some .undef) [.undef] =
      some (.thrown (.typeError "not iterable"))
    ∧ reduceCall (fun a _ _ => a) (some .undef) [.undef] ≠ some (.ok .undef) := by
  constructor
  · rfl
  · decide

/-- C10 (amended to a first element that is not undefined): passing
`undefined` explicitly as the initial value behaves identically to passing
no initial value at all (the code only tests `initialValue === undefined`),
so it is never used as a seed: on an exhausted Sequence the call fails
rather than returning undefined, and on a Sequence of elements that are not
undefined the first element seeds the fold, which starts from the second
element. -/
theorem reduce_undefined_seed :
    (∀ (f : JSVal → JSVal → JSVal → JSVal) (l : List JSVal),
      reduceCall f (some .undef) l = reduceCall f none l)
    ∧ (∀ f : JSVal → JSVal → JSVal → JSVal,
      reduceCall f (some .undef) [] = some (.thrown (.typeError "not iterable")))
    ∧ (∀ (f : JSVal → JSVal → JSVal → JSVal) (v0 : JSVal) (rest : List JSVal),
        v0 ≠ .undef → (∀ v ∈ rest, v ≠ .undef) →
        reduceCall f (some .undef) (v0 :: rest) =
          some (.ok (foldWithIndex f v0 rest 1))) := by
  refine ⟨fun f l => rfl, fun f => rfl, ?_⟩
  intro f v0 rest hv hrest
  exact reduce_unseeded_clean f v0 rest hv hrest

theorem reduce_undefined_seed_witness :
    reduceCall (fun a _ _ => a) (some .undef) [.num (.int 8), .num (.int 9)] =
      some (.ok (.num (.int 8))) := by
  rw [reduce_undefined_seed.2.2 _ _ _ (by decide) (by decide)]
  rfl

lemma zip_drain_lists :
    ∀ (l1 l2 : List JSVal) (fuel : Nat), min l1.length l2.length + 1 ≤ fuel →
      drain (zipStep listStep listStep) fuel (l1, l2) = zipSpec l1 l2 := by
  intro l1
  induction l1 with
  | nil =>
    intro l2 fuel hf
    obtain ⟨f', rfl⟩ : ∃ f', fuel = f' + 1 := ⟨fuel - 1, by omega⟩
    cases l2 <;> simp [drain, zipStep, listStep, zipSpec]
  | cons v1 r1 ih =>
    intro l2 fuel hf
    obtain ⟨f', rfl⟩ : ∃ f', fuel = f' + 1 := ⟨fuel - 1, by omega⟩
    cases l2 with
    | nil => simp [drain, zipStep, listStep, zipSpec]
    | cons v2 r2 =>
      simp only [drain, zipStep, listStep]
      simp [zipSpec]
      have hlen : min r1.length r2.length + 1 ≤ f' := by simp at hf; omega
      simpa [zipSpec] using ih r2 f' hlen

/-- C6: the zip cursor pulls one element from each source per step (both
source states advance by one on every pull), reports exhaustion exactly
when either source is exhausted, and draining zip of two finite sources
yields the pairs truncated to the shorter source; in particular zipping
[1,2,3] with ["a","b"] drains to exactly the two pairs (1,"a") and
(2,"b"). -/
theorem zip_truncates_claim :
    (∀ l1 l2 : List JSVal, (zipStep listStep listStep (l1, l2)).2 = (l1.tail, l2.tail))
    ∧ (∀ l1 l2 : List JSVal,
        (zipStep listStep listStep (l1, l2)).1.done = (l1.isEmpty || l2.isEmpty))
    ∧ (∀ (l1 l2 : List JSVal) (fuel : Nat), min l1.length l2.length + 1 ≤ fuel →
        drain (zipStep listStep listStep) fuel (l1, l2) = zipSpec l1 l2)
    ∧ drain (zipStep listStep listStep) 3
        ([.num (.int 1), .num (.int 2), .num (.int 3)], [.str "a", .str "b"]) =
        [.pair (.num (.int 1)) (.str "a"), .pair (.num (.int 2)) (.str "b")] := by
  refine ⟨?_, ?_, zip_drain_lists, by decide⟩
  · intro l1 l2
    cases l1 <;> cases l2 <;> simp [zipStep, listStep]
  · intro l1 l2
    cases l1 <;> cases l2 <;> simp [zipStep, listStep]

theorem zip_truncates_claim_witness :
    drain (zipStep listStep listStep) 2 ([.str "p"], [.str "q", .str "r"]) =
      zipSpec [.str "p"] [.str "q", .str "r"] :=
  zip_truncates_claim.2.2.1 _ _ 2 (by decide)

lemma concat_drain :
    ∀ (items : List ConcatItem) (l : List JSVal) (fuel : Nat),
      l.length + (concatFlatten items).length + 1 ≤ fuel →
      drain concatStep fuel (l, items) = l ++ concatFlatten items := by
  intro items
  induction items with
  | nil =>
    intro l
    induction l with
    | nil =>
      intro fuel hf
      obtain ⟨f', rfl⟩ : ∃ f', fuel = f' + 1 := ⟨fuel - 1, by omega⟩
      simp [drain, concatStep, concatPull, concatFlatten]
    | cons v rest ihl =>
      intro fuel hf
      obtain ⟨f', rfl⟩ : ∃ f', fuel = f' + 1 := ⟨fuel - 1, by omega⟩
      simp [drain, concatStep, concatPull]
      exact ihl f' (by simp [concatFlatten] at hf ⊢; omega)
  | cons it items2 ih =>
    intro l
    induction l with
    | nil =>
      intro fuel hf
      have hdr : drain concatStep fuel (([] : List JSVal), it :: items2)
          = drain concatStep fuel (itemToList it, items2) := by
        cases fuel with
        | zero => rfl
        | succ f' => rfl
      rw [hdr]
      have hlen : (itemToList it).length + (concatFlatten items2).length + 1 ≤ fuel := by
        simp [concatFlatten] at hf; omega
      simpa [concatFlatten] using ih (itemToList it) fuel hlen
    | cons v rest ihl =>
      intro fuel hf
      obtain ⟨f', rfl⟩ : ∃ f', fuel = f' + 1 := ⟨fuel - 1, by omega⟩
      simp [drain, concatStep, concatPull]
      exact ihl f' (by simp at hf ⊢; omega)

/-- C7: static `concat` consumes its items left to right, a Seq item
contributing its elements in order and a bare value contributing itself as
a singleton; the concrete drain of concat(Seq.of(1,2), 3, Seq.of(4)) is
exactly [1,2,3,4]; and concat of an empty item list returns the shared,
already-exhausted `Seq.empty` (whose cursor drains to nothing). -/
theorem concat_left_to_right_claim :
    concatMake [] = ConcatResult.emptySeq
    ∧ (∀ fuel : Nat, drain listStep fuel [] = [])
    ∧ (∀ (it : ConcatItem) (items : List ConcatItem),
        concatMake (it :: items) = .cursor (itemToList it, items))
    ∧ (∀ (it : ConcatItem) (items : List ConcatItem) (fuel : Nat),
        (concatFlatten (it :: items)).length + 1 ≤ fuel →
        drain concatStep fuel (itemToList it, items) = concatFlatten (it :: items))
    ∧ drain concatStep 5 ([.num (.int 1), .num (.int 2)],
        [.scalar (.num (.int 3)), .seq [.num (.int 4)]]) =
        [.num (.int 1), .num (.int 2), .num (.int 3), .num (.int 4)] := by
  refine ⟨rfl, ?_, fun it items => rfl, ?_, by decide⟩
  · intro fuel
    cases fuel <;> rfl
  · intro it items fuel hf
    have hlen : (itemToList it).length + (concatFlatten items).length + 1 ≤ fuel := by
      simp [concatFlatten] at hf; omega
    simpa [concatFlatten] using concat_drain items (itemToList it) fuel hlen

theorem concat_left_to_right_claim_witness :
    drain concatStep 3 (itemToList (.seq [.str "a"]), [.scalar (.str "b")]) =
      concatFlatten [ConcatItem.seq [.str "a"], ConcatItem.scalar (.str "b")] :=
  concat_left_to_right_claim.2.2.2.1 _ _ 3 (by decide)

lemma nthRes_succ_front {σ : Type} (step : σ → IterResult × σ) (s : σ) (n : Nat) :
    nthRes step s (n + 1) = nthRes step (step s).2 n := by
  induction n with
  | zero => rfl
  | succ n ih =>
    show step (nthRes step s (n + 1)).2 = step (nthRes step (step s).2 n).2
    rw [ih]

lemma done_step_mono {σ : Type} (step : σ → IterResult × σ) (hs : StickyStep step) :
    ∀ (n : Nat) (s : σ),
      (nthRes step s n).1.done = true → (nthRes step s (n + 1)).1.done = true := by
  intro n
  induction n with
  | zero => intro s h; exact hs s h
  | succ n ih =>
    intro s h
    rw [nthRes_succ_front] at h
    rw [nthRes_succ_front]
    exact ih (step s).2 h

lemma sticky_of_stickyStep {σ : Type} (step : σ → IterResult × σ) (hs : StickyStep step)
    (s : σ) : Sticky step s := by
  intro n m hnm hdone
  induction m, hnm using Nat.le_induction with
  | base => exact hdone
  | succ m hm ih => exact done_step_mono step hs m s ih

lemma stickyStep_list : StickyStep listStep := by
  intro s h
  cases s with
  | nil => rfl
  | cons v l => simp [listStep] at h

lemma mapStep_done_eq {σ : Type} (f : JSVal → Nat → JSVal) (step : σ → IterResult × σ)
    (s : σ × Nat) : (mapStep f step s).1.done = (step s.1).1.done := by
  by_cases h : (step s.1).1.value = .undef <;> simp [mapStep, h]

lemma mapStep_state_fst {σ : Type} (f : JSVal → Nat → JSVal) (step : σ → IterResult × σ)
    (s : σ × Nat) : (mapStep f step s).2.1 = (step s.1).2 := by
  by_cases h : (step s.1).1.value = .undef <;> simp [mapStep, h]

lemma stickyStep_map {σ : Type} (f : JSVal → Nat → JSVal) (step : σ → IterResult × σ)
    (hs : StickyStep step) : StickyStep (mapStep f step) := by
  intro s h
  rw [mapStep_done_eq] at h
  rw [mapStep_done_eq, mapStep_state_fst]
  exact hs s.1 h

lemma filterPull_done_nil (p : JSVal → Nat → Bool) :
    ∀ (l : List JSVal) (i : Nat),
      (filterPull p l i).1.done = true → (filterPull p l i).2.1 = [] := by
  intro l
  induction l with
  | nil => intro i _; rfl
  | cons v rest ih =>
    intro i h
    by_cases hp : p v i
    · simp [filterPull, hp] at h
    · simp only [filterPull] at h ⊢
      simp [hp] at h ⊢
      exact ih (i + 1) h

lemma stickyStep_filter (p : JSVal → Nat → Bool) : StickyStep (filterStep p) := by
  intro s h
  obtain ⟨l, i⟩ := s
  have h2 := filterPull_done_nil p l i h
  show (filterPull p ((filterPull p l i).2.1) ((filterPull p l i).2.2)).1.done = true
  rw [h2]
  rfl

lemma concatPull_done_state :
    ∀ (items : List ConcatItem) (l : List JSVal),
      (concatPull l items).1.done = true → (concatPull l items).2 = ([], []) := by
  intro items
  induction items with
  | nil =>
    intro l h
    cases l with
    | nil => rfl
    | cons v rest => simp [concatPull] at h
  | cons it items2 ih =>
    intro l h
    cases l with
    | nil => exact ih (itemToList it) h
    | cons v rest => simp [concatPull] at h

lemma stickyStep_concat : StickyStep concatStep := by
  intro s h
  obtain ⟨l, items⟩ := s
  have h2 := concatPull_done_state items l h
  show (concatPull ((concatPull l items).2.1) ((concatPull l items).2.2)).1.done = true
  rw [h2]
  rfl

lemma zipStep_done_eq {σ₁ σ₂ : Type} (step1 : σ₁ → IterResult × σ₁)
    (step2 : σ₂ → IterResult × σ₂) (s : σ₁ × σ₂) :
    (zipStep step1 step2 s).1.done = ((step1 s.1).1.done || (step2 s.2).1.done) := by
  by_cases h : ((step1 s.1).1.done || (step2 s.2).1.done) = true <;> simp [zipStep, h]

lemma zipStep_state {σ₁ σ₂ : Type} (step1 : σ₁ → IterResult × σ₁)
    (step2 : σ₂ → IterResult × σ₂) (s : σ₁ × σ₂) :
    (zipStep step1 step2 s).2 = ((step1 s.1).2, (step2 s.2).2) := by
  by_cases h : ((step1 s.1).1.done || (step2 s.2).1.done) = true <;> simp [zipStep, h]

lemma stickyStep_zip {σ₁ σ₂ : Type} (step1 : σ₁ → IterResult × σ₁)
    (step2 : σ₂ → IterResult × σ₂) (h1 : StickyStep step1) (h2 : StickyStep step2) :
    StickyStep (zipStep step1 step2) := by
  intro s h
  rw [zipStep_done_eq] at h
  rw [zipStep_done_eq, zipStep_state]
  cases (Bool.or_eq_true _ _).mp h with
  | inl ha => simp [h1 s.1 ha]
  | inr hb => simp [h2 s.2 hb]

lemma stickyStep_initInfinite : StickyStep initInfiniteStep := by
  intro s h
  simp [initInfiniteStep] at h

/-- C5: for every cursor the engine itself builds — array-backed sources
(of, from, empty, init), map over any sticky upstream, filter and concat
over array-backed upstreams, zip over any pair of sticky upstreams, and the
infinite generator — once some pull reports exhaustion, every later pull on
that same cursor reports exhaustion too, provided the underlying cursors
themselves keep reporting exhaustion (the StickyStep hypotheses). -/
theorem adapters_sticky_exhaustion :
    (∀ l : List JSVal, Sticky listStep l)
    ∧ (∀ (σ : Type) (step : σ → IterResult × σ) (f : JSVal → Nat → JSVal),
        StickyStep step → ∀ s : σ × Nat, Sticky (mapStep f step) s)
    ∧ (∀ (p : JSVal → Nat → Bool) (s : List JSVal × Nat), Sticky (filterStep p) s)
    ∧ (∀ s : List JSVal × List ConcatItem, Sticky concatStep s)
    ∧ (∀ (σ₁ σ₂ : Type) (step1 : σ₁ → IterResult × σ₁) (step2 : σ₂ → IterResult × σ₂),
        StickyStep step1 → StickyStep step2 → ∀ s : σ₁ × σ₂,
          Sticky (zipStep step1 step2) s)
    ∧ (∀ n : Nat, Sticky initInfiniteStep n) :=
  ⟨fun l => sticky_of_stickyStep _ stickyStep_list l,
   fun _ step f hs s => sticky_of_stickyStep _ (stickyStep_map f step hs) s,
   fun p s => sticky_of_stickyStep _ (stickyStep_filter p) s,
   fun s => sticky_of_stickyStep _ stickyStep_concat s,
   fun _ _ step1 step2 h1 h2 s => sticky_of_stickyStep _ (stickyStep_zip step1 step2 h1 h2) s,
   fun n => sticky_of_stickyStep _ stickyStep_initInfinite n⟩

theorem adapters_sticky_exhaustion_witness :
    Sticky (mapStep entriesCb listStep) ([.num (.int 1)], 0)
    ∧ Sticky (zipStep listStep listStep) ([.str "a"], ([] : List JSVal)) :=
  ⟨adapters_sticky_exhaustion.2.1 _ listStep entriesCb stickyStep_list _,
   adapters_sticky_exhaustion.2.2.2.2.1 _ _ listStep listStep
     stickyStep_list stickyStep_list _⟩

lemma entriesInfinite_step (n i : Nat) :
    mapStep entriesCb initInfiniteStep (n, i) =
      (⟨false, .pair (.num (.int (i : Int))) (.num (.int (n : Int)))⟩, (n + 1, i + 1)) := by
  simp [mapStep, initInfiniteStep, entriesCb]

lemma findIndex_infinite_aux (p : JSVal → JSVal → Bool) :
    ∀ (d n fuel : Nat),
      p (.num (.int ((n + d : Nat) : Int))) (.num (.int ((n + d : Nat) : Int))) = true →
      (∀ j : Nat, n ≤ j → j < n + d →
        p (.num (.int (j : Int))) (.num (.int (j : Int))) = false) →
      d + 1 ≤ fuel →
      findIndexLoop (mapStep entriesCb initInfiniteStep) p fuel (n, n) =
        some (.ok (.num (.int ((n + d : Nat) : Int))), (n + d + 1, n + d + 1)) := by
  intro d
  induction d with
  | zero =>
    intro n fuel hp _ hf
    obtain ⟨f', rfl⟩ : ∃ f', fuel = f' + 1 := ⟨fuel - 1, by omega⟩
    simp only [Nat.add_zero] at hp ⊢
    simp [findIndexLoop, entriesInfinite_step, destructurePair, hp]
  | succ d ih =>
    intro n fuel hp hlt hf
    obtain ⟨f', rfl⟩ : ∃ f', fuel = f' + 1 := ⟨fuel - 1, by omega⟩
    have hn : p (.num (.int (n : Int))) (.num (.int (n : Int))) = false :=
      hlt n le_rfl (by omega)
    have hstep : findIndexLoop (mapStep entriesCb initInfiniteStep) p (f' + 1) (n, n) =
        findIndexLoop (mapStep entriesCb initInfiniteStep) p f' (n + 1, n + 1) := by
      simp [findIndexLoop, entriesInfinite_step, destructurePair, hn]
    rw [hstep]
    have harr : n + (d + 1) = (n + 1) + d := by omega
    rw [harr] at hp ⊢
    exact ih (n + 1) f' hp (fun j hj1 hj2 => hlt j (by omega) (by omega)) (by omega)

/-- C8: running `findIndex` over the Sequence produced by `initInfinite()`
with a predicate that is false at positions below k and true at position k
terminates within k+1 loop iterations, returns k, and leaves the infinite
source having been pulled exactly k+1 times (the source state counts its
pulls). -/
theorem findIndex_initInfinite_claim (p : JSVal → JSVal → Bool) (k : Nat)
    (hk : p (.num (.int (k : Int))) (.num (.int (k : Int))) = true)
    (hlt : ∀ j : Nat, j < k → p (.num (.int (j : Int))) (.num (.int (j : Int))) = false)
    (fuel : Nat) (hf : k + 1 ≤ fuel) :
    findIndexLoop (mapStep entriesCb initInfiniteStep) p fuel (0, 0) =
      some (.ok (.num (.int (k : Int))), (k + 1, k + 1)) := by
  have := findIndex_infinite_aux p k 0 fuel (by simpa using hk)
    (fun j hj1 hj2 => hlt j (by omega)) (by omega)
  simpa using this

/-- Concrete predicate for the C8 witness: true exactly on the value 2,
which the infinite generator first produces at position 2. -/
def sampleFindPred : JSVal → JSVal → Bool :=
  fun item _ => decide (item = .num (.int 2))

theorem findIndex_initInfinite_claim_witness :
    findIndexLoop (mapStep entriesCb initInfiniteStep) sampleFindPred 3 (0, 0) =
      some (.ok (.num (.int ((2 : Nat) : Int))), (2 + 1, 2 + 1)) :=
  findIndex_initInfinite_claim sampleFindPred 2 (by decide) (by decide) 3 (by decide)

lemma jsGE_num (i : Nat) (fi : Int) :
    jsGE (.num (.int (i : Int))) fi = decide (fi ≤ (i : Int)) := rfl

lemma includesLoop_clean (search : JSVal) (fromIndex : Option Int) :
    ∀ (l : List JSVal) (i fuel : Nat), (∀ v ∈ l, v ≠ .undef) → l.length + 1 ≤ fuel →
      includesLoop search fromIndex fuel (l, i) =
        some (.ok (includesSpec search fromIndex l i)) := by
  intro l
  induction l with
  | nil =>
    intro i fuel _ hf
    obtain ⟨f', rfl⟩ : ∃ f', fuel = f' + 1 := ⟨fuel - 1, by omega⟩
    simp [includesLoop, entriesNext_nil, includesSpec]
  | cons v rest ih =>
    intro i fuel hc hf
    obtain ⟨f', rfl⟩ : ∃ f', fuel = f' + 1 := ⟨fuel - 1, by omega⟩
    have hv : v ≠ .undef := hc v (by simp)
    have hrest : ∀ w ∈ rest, w ≠ .undef := fun w hw => hc w (by simp [hw])
    have hlen : rest.length + 1 ≤ f' := by simp at hf; omega
    by_cases hcond : ((fromIndex.elim true fun fi => decide (fi ≤ (i : Int)))
        && sameValueZero v search) = true
    · simp [includesLoop, entriesNext_cons hv, destructurePair, jsGE_num,
        includesSpec, hcond]
    · simp [includesLoop, entriesNext_cons hv, destructurePair, jsGE_num,
        includesSpec, hcond]
      exact ih (i + 1) f' hrest hlen

/-- C9 counterexample: a Sequence whose sole produced element is
`undefined` makes `includes(undefined)` throw (the entries cursor yields
the boolean `false` for an undefined element and destructuring it fails)
instead of returning true as the claim demands for a strictly identical
element at index 0. -/
theorem includes_undefined_counterexample :
    includesModel .undef none [.undef] = some (.thrown (.typeError "not iterable"))
    ∧ includesModel .undef none [.undef] ≠ some (.ok true) := by
  constructor
  · rfl
  · decide

/-- C9 (amended to Sequences with no undefined element): `includes` returns
true exactly when some produced element at an index at or above fromIndex
(no lower bound when the argument is absent) matches the search element
under sameValueZero, that is, is strictly identical to it or both are the
not-a-number value. -/
theorem includes_sameValueZero_claim (search : JSVal) (fromIndex : Option Int)
    (l : List JSVal) (h : ∀ v ∈ l, v ≠ .undef) :
    includesModel search fromIndex l = some (.ok (includesSpec search fromIndex l 0)) :=
  includesLoop_clean search fromIndex l 0 (l.length + 1) h (by omega)

theorem includes_sameValueZero_claim_witness :
    includesModel (.num .nan) none [.num (.int 1), .num .nan] = some (.ok true) := by
  rw [includes_sameValueZero_claim _ _ _ (by decide)]
  rfl
